import Mathlib

/-!
Verification development for the aevitas static-site generator
(github.com/tkellen/aevitas).

The Go sources are shallowly embedded: pure Go functions become Lean
functions, Go maps become association lists over their (string) keys,
Go errors become an explicit error type, and `time.Time` values produced
by `time.Date(..., time.UTC)` are represented by the signed number of
seconds since January 1 of year 1 (the Go zero time), computed with the
same month normalization and proleptic-Gregorian day arithmetic that the
Go standard library performs.  Machine integers are modelled by `Int`
(none of the embedded arithmetic approaches overflow on the inputs the
claims concern).
-/

namespace Aevitas

/-! ## Association lists (the embedding of Go `map[string]V`) -/

def alookup {α : Type} : List (String × α) → String → Option α
  | [], _ => none
  | (k, v) :: rest, key => if k = key then some v else alookup rest key

def aset {α : Type} : List (String × α) → String → α → List (String × α)
  | [], key, v => [(key, v)]
  | (k, w) :: rest, key, v =>
    if k = key then (key, v) :: rest else (k, w) :: aset rest key v

theorem alookup_aset_self {α : Type} (l : List (String × α)) (k : String) (v : α) :
    alookup (aset l k v) k = some v := by
  induction l with
  | nil => simp [aset, alookup]
  | cons hd tl ih =>
    obtain ⟨k0, v0⟩ := hd
    by_cases h : k0 = k <;> simp [aset, alookup, h, ih]

theorem alookup_aset_ne {α : Type} (l : List (String × α)) (k k' : String) (v : α)
    (h : k ≠ k') : alookup (aset l k v) k' = alookup l k' := by
  induction l with
  | nil => simp [aset, alookup, h]
  | cons hd tl ih =>
    obtain ⟨k0, v0⟩ := hd
    by_cases h0 : k0 = k
    · subst h0
      simp [aset, alookup, h]
    · simp [aset, alookup, h0, ih]

theorem alookup_aset {α : Type} (l : List (String × α)) (k k' : String) (v : α) :
    alookup (aset l k v) k' = if k = k' then some v else alookup l k' := by
  by_cases h : k = k'
  · subst h; simp [alookup_aset_self]
  · simp [h, alookup_aset_ne l k k' v h]

/-! ## Sorting

Go's `sort.Sort` rearranges a slice so that it is ordered with respect to
the comparator's `Less`; the algorithm is unspecified beyond that contract
(it is not stable).  We model it with a straightforward insertion sort
parameterized by the non-strict comparison `le a b := ¬ Less b a`, which
satisfies the same contract. -/

def insertSorted {α : Type} (le : α → α → Bool) (x : α) : List α → List α
  | [] => [x]
  | y :: ys => if le x y then x :: y :: ys else y :: insertSorted le x ys

def sortBy {α : Type} (le : α → α → Bool) : List α → List α
  | [] => []
  | x :: xs => insertSorted le x (sortBy le xs)

theorem insertSorted_perm {α : Type} (le : α → α → Bool) (x : α) (l : List α) :
    (insertSorted le x l).Perm (x :: l) := by
  induction l with
  | nil => simp [insertSorted]
  | cons y ys ih =>
    by_cases h : le x y
    · simp [insertSorted, h]
    · simp only [insertSorted, h, if_neg, Bool.false_eq_true, if_false]
      exact ((ih.cons y).trans (List.Perm.swap x y ys))

theorem sortBy_perm {α : Type} (le : α → α → Bool) (l : List α) :
    (sortBy le l).Perm l := by
  induction l with
  | nil => simp [sortBy]
  | cons x xs ih =>
    exact (insertSorted_perm le x (sortBy le xs)).trans (ih.cons x)

theorem sortBy_length {α : Type} (le : α → α → Bool) (l : List α) :
    (sortBy le l).length = l.length :=
  (sortBy_perm le l).length_eq

theorem mem_sortBy {α : Type} (le : α → α → Bool) (l : List α) (a : α) :
    a ∈ sortBy le l ↔ a ∈ l :=
  (sortBy_perm le l).mem_iff

theorem insertSorted_pairwise {α : Type} (le : α → α → Bool) (P : α → Prop)
    (htot : ∀ a b, P a → P b → le a b = true ∨ le b a = true)
    (htrans : ∀ a b c, P a → P b → P c → le a b = true → le b c = true → le a c = true)
    (x : α) (l : List α) (hx : P x) (hl : ∀ a ∈ l, P a)
    (hs : l.Pairwise (fun a b => le a b = true)) :
    (insertSorted le x l).Pairwise (fun a b => le a b = true) := by
  induction l with
  | nil => simp [insertSorted]
  | cons y ys ih =>
    have hy : P y := hl y (by simp)
    have hys : ∀ a ∈ ys, P a := fun a ha => hl a (by simp [ha])
    rcases List.pairwise_cons.mp hs with ⟨hyle, hsys⟩
    by_cases h : le x y
    · simp only [insertSorted, h, if_true]
      refine List.pairwise_cons.mpr ⟨?_, hs⟩
      intro b hb
      rcases List.mem_cons.mp hb with hb | hb
      · subst hb; exact h
      · exact htrans x y b hx hy (hys b hb) h (hyle b hb)
    · simp only [insertSorted, h, Bool.false_eq_true, if_false]
      refine List.pairwise_cons.mpr ⟨?_, ih hys hsys⟩
      intro b hb
      have hyx : le y x = true := by
        rcases htot x y hx hy with h' | h'
        · exact absurd h' (by simpa using h)
        · exact h'
      have hb2 : b ∈ x :: ys := (insertSorted_perm le x ys).mem_iff.mp hb
      rcases List.mem_cons.mp hb2 with hb2 | hb2
      · subst hb2; exact hyx
      · exact hyle b hb2

theorem sortBy_pairwise {α : Type} (le : α → α → Bool) (P : α → Prop)
    (htot : ∀ a b, P a → P b → le a b = true ∨ le b a = true)
    (htrans : ∀ a b c, P a → P b → P c → le a b = true → le b c = true → le a c = true)
    (l : List α) (hl : ∀ a ∈ l, P a) :
    (sortBy le l).Pairwise (fun a b => le a b = true) := by
  induction l with
  | nil => simp [sortBy]
  | cons x xs ih =>
    have hxs : ∀ a ∈ xs, P a := fun a ha => hl a (by simp [ha])
    exact insertSorted_pairwise le P htot htrans x (sortBy le xs) (hl x (by simp))
      (fun a ha => hxs a ((mem_sortBy le xs a).mp ha)) (ih hxs)

/-! ## Go time model

`Manifest.PublishAt()` builds `time.Date(Year, Month, Day, Hours, Minutes,
Seconds, 0, time.UTC)` from the deconstructed `meta.publishAt` block.
`time.Date` normalizes the month into `[January, December]` shifting the
year (floor division), then adds calendar days and clock seconds linearly.
We embed the resulting instant as the signed count of seconds since the Go
zero time (January 1, year 1, 00:00:00 UTC); `IsZero` is `= 0` and
`Before`/`After`/`Equal` are `<`/`>`/`=` on these counts. -/

def isLeap (y : Int) : Bool :=
  y % 4 == 0 && (y % 100 != 0 || y % 400 == 0)

/-- Days from January 1 of year 1 to January 1 of year `y`
(proleptic Gregorian, matching Go's `daysSinceEpoch` up to the epoch shift). -/
def daysFromYear1 (y : Int) : Int :=
  let n := y - 1
  365 * n + Int.fdiv n 4 - Int.fdiv n 100 + Int.fdiv n 400

/-- Go's `daysBefore` table: cumulative days before each (normalized) month. -/
def daysBeforeMonth (m : Int) : Int :=
  (([0, 31, 59, 90, 120, 151, 181, 212, 243, 273, 304, 334].getD m.toNat 0 : Nat) : Int)

structure PublishAt where
  Year : Int
  Month : Int
  Day : Int
  Hours : Int
  Minutes : Int
  Seconds : Int
  deriving DecidableEq, Repr

/-- Seconds since the Go zero time of
`time.Date(Year, Month, Day, Hours, Minutes, Seconds, 0, time.UTC)`. -/
def goTimeAbs (pa : PublishAt) : Int :=
  let m0 := pa.Month - 1
  let y := pa.Year + Int.fdiv m0 12
  let m := Int.fmod m0 12
  let leapAdj : Int := if isLeap y ∧ m ≥ 2 then 1 else 0
  let days := daysFromYear1 y + daysBeforeMonth m + leapAdj + (pa.Day - 1)
  days * 86400 + pa.Hours * 3600 + pa.Minutes * 60 + pa.Seconds

/-! ## Selector (src/internal/selector/selector.go) -/

/-- Go's `strings.Split(s, "/")` for the single-character separator the
selector code uses: splitting the empty string yields `[""]`, separators
at the ends yield empty segments.  (Defined by structural recursion over
the character list so that concrete witnesses evaluate in the kernel.) -/
def splitSlash : List Char → List String
  | [] => [""]
  | c :: rest =>
    let r := splitSlash rest
    if c = '/' then "" :: r
    else
      match r with
      | [] => [String.mk [c]]
      | h :: t => String.mk (c :: h.data) :: t

def goSplit (s : String) : List String := splitSlash s.data

structure Selector where
  Raw : String
  KGV : String
  KGVN : String
  Name : String
  deriving DecidableEq, Repr

def Selector.ID (s : Selector) : String := s.Raw

def Selector.IsWildcard (s : Selector) : Bool := s.Name == "*"

/-- `Selector.Validate`.  Go splits `s.Raw` on `/` and indexes elements 0-4
(`New` has already guaranteed five parts); `getD` stands in for the index. -/
def Selector.ValidateB (s : Selector) : Bool :=
  let parts := goSplit s.Raw
  !(parts.getD 0 "" == "" || parts.getD 1 "" == "" || parts.getD 2 "" == "" ||
    parts.getD 3 "" == "" || parts.getD 4 "" == "")

/-- `selector.New`: error results are `none`. -/
def Selector.New (s : String) : Option Selector :=
  let parts := goSplit s
  if parts.length ≠ 5 then none
  else
    let instance0 : Selector :=
      { Raw := s
        KGV := String.intercalate "/" (parts.take 3)
        KGVN := String.intercalate "/" (parts.take 4)
        Name := parts.getD 4 "" }
    if instance0.ValidateB then some instance0 else none

/-- `Selector.Matches`: receiver first, argument second
(`a.Matches b` is Go's `a.Matches(&b)`). -/
def Selector.Matches (s check : Selector) : Bool :=
  check.KGVN == s.KGVN && (check.Name == s.Name || check.IsWildcard || s.IsWildcard)

/-- Claim C5: every string splitting into exactly five non-empty
`/`-separated segments parses, and the parsed selector's `ID()` is the
input string; strings with a different number of segments, or with an
empty segment among the five, are rejected. -/
theorem c5_selector_roundtrip (s : String) :
    (((goSplit s).length = 5 ∧ ∀ p ∈ goSplit s, p ≠ "") →
      ∃ sel, Selector.New s = some sel ∧ sel.ID = s) ∧
    ((goSplit s).length ≠ 5 → Selector.New s = none) ∧
    (((goSplit s).length = 5 ∧ ∃ p ∈ goSplit s, p = "") →
      Selector.New s = none) := by
  refine ⟨?_, ?_, ?_⟩
  · rintro ⟨hlen, hne⟩
    rcases hp : goSplit s with _ | ⟨a, _ | ⟨b, _ | ⟨c, _ | ⟨d, _ | ⟨e, rest⟩⟩⟩⟩⟩ <;>
      simp [hp] at hlen
    subst hlen
    have ha := hne a (by simp [hp])
    have hb := hne b (by simp [hp])
    have hc := hne c (by simp [hp])
    have hd := hne d (by simp [hp])
    have he := hne e (by simp [hp])
    refine ⟨{ Raw := s, KGV := String.intercalate "/" ([a, b, c, d, e].take 3),
              KGVN := String.intercalate "/" ([a, b, c, d, e].take 4),
              Name := [a, b, c, d, e].getD 4 "" }, ?_, rfl⟩
    simp [Selector.New, Selector.ValidateB, hp, ha, hb, hc, hd, he]
  · intro hlen
    simp [Selector.New, hlen]
  · rintro ⟨hlen, p, hmem, hp⟩
    subst hp
    rcases hq : goSplit s with _ | ⟨a, _ | ⟨b, _ | ⟨c, _ | ⟨d, _ | ⟨e, rest⟩⟩⟩⟩⟩ <;>
      simp [hq] at hlen
    subst hlen
    rw [hq] at hmem
    simp only [List.mem_cons, List.not_mem_nil, or_false] at hmem
    unfold Selector.New
    rw [hq]
    rcases hmem with h | h | h | h | h <;>
      simp [Selector.ValidateB, hq, h]

/-- Claim C6: `a.Matches(b)` holds exactly when the KGVN projections agree
and the names agree or one of them is the wildcard; consequently `Matches`
is symmetric. -/
theorem c6_matches_symmetry (a b : Selector) :
    (a.Matches b = true ↔
      (a.KGVN = b.KGVN ∧ (a.Name = b.Name ∨ a.Name = "*" ∨ b.Name = "*"))) ∧
    a.Matches b = b.Matches a := by
  constructor
  · simp only [Selector.Matches, Selector.IsWildcard, Bool.and_eq_true, Bool.or_eq_true,
      beq_iff_eq]
    constructor
    · rintro ⟨h1, h2⟩
      exact ⟨h1.symm, by tauto⟩
    · rintro ⟨h1, h2⟩
      exact ⟨h1.symm, by tauto⟩
  · simp only [Selector.Matches, Selector.IsWildcard]
    rcases h1 : (b.KGVN == a.KGVN) with _ | _ <;>
      rcases h2 : (a.KGVN == b.KGVN) with _ | _ <;>
      simp_all [beq_iff_eq] <;>
      rcases h3 : (b.Name == a.Name) with _ | _ <;>
      rcases h4 : (a.Name == b.Name) with _ | _ <;>
      simp_all [beq_iff_eq, Bool.or_comm]

/-! ## Manifest data model (src/pkg/manifest/meta.go, manifest.go)

`MatchExpression.Values` is `[]interface{}` populated from JSON, so a
value is either a number (decoded as `float64` and truncated with
`int(...)` by the comparison closures) or a `[year, month, day]` triple
(for `OnDate`).  We carry the truncated integers directly.  Fields of the
source structs that no claim touches (`File`, `Title`, `Description`,
`Href` and the href/title prefixes, `RenderWith`, `ImportsDynamic`,
generators) are omitted from the embedding. -/

inductive MatchValue where
  | num (n : Int)
  | triple (y m d : Int)
  deriving DecidableEq, Repr

structure MatchExpression where
  Key : String
  Operator : String
  Values : List MatchValue
  deriving DecidableEq, Repr

structure Relation where
  Name : String
  selector : Selector
  MatchIfRelatedTo : List Selector
  matchExpression : List MatchExpression
  /- Go `int`; the claims concern the non-negative counts JSON supplies
  (negative values would make the Go slice expression panic). -/
  Limit : Nat
  Offset : Nat
  Order : String
  deriving DecidableEq, Repr

/-- `Child` wraps an embedded `*Relation` (title/href prefixes omitted). -/
structure Child where
  relation : Relation
  deriving DecidableEq, Repr

structure Meta where
  Live : Bool
  publishAt : Option PublishAt
  Relations : List Relation
  Children : List Child
  Imports : List Relation
  deriving DecidableEq, Repr

structure Manifest where
  selector : Selector
  meta : Option Meta
  deriving DecidableEq, Repr

/-- `Manifest.PublishAt()` as seconds since the Go zero time.  A `nil`
`meta.publishAt` yields the zero time.  (Go dereferences `m.Meta`; a nil
`Meta` would panic there, and every caller the claims touch guards it, so
the `none` branch returns the zero time as harmless junk.) -/
def Manifest.publishTime (m : Manifest) : Int :=
  match m.meta with
  | none => 0
  | some mt =>
    match mt.publishAt with
    | none => 0
    | some pa => goTimeAbs pa

/-- `Manifest.IsLive()`, with `time.Now()` supplied as the parameter
`now` (seconds since the Go zero time).  `time.Now().After(t)` is the
strict comparison `now > t`. -/
def Manifest.IsLive (now : Int) (m : Manifest) : Bool :=
  match m.meta with
  | none => false
  | some mt =>
    if !mt.Live then false
    else if m.publishTime ≠ 0 then decide (now > m.publishTime)
    else true

/-- `Manifest.Greater` (receiver first: `m.Greater compare`). -/
def Manifest.Greater (m compare : Manifest) : Bool :=
  match compare.meta with
  | none => false
  | some _ =>
    if m.publishTime = 0 ∨ compare.publishTime = 0 then
      decide (m.selector.ID > compare.selector.ID)
    else decide (m.publishTime > compare.publishTime)

/-- `Manifest.Less` (receiver first: `m.Less compare`). -/
def Manifest.Less (m compare : Manifest) : Bool :=
  match compare.meta with
  | none => false
  | some _ =>
    if m.publishTime = 0 ∨ compare.publishTime = 0 then
      decide (m.selector.ID < compare.selector.ID)
    else decide (m.publishTime < compare.publishTime)

/-- `Manifest.Equal` (receiver first: `m.Equal compare`). -/
def Manifest.Equal (m compare : Manifest) : Bool :=
  match compare.meta with
  | none => false
  | some _ =>
    if m.publishTime = 0 ∨ compare.publishTime = 0 then true
    else decide (m.publishTime = compare.publishTime)

/-! ### Concrete fixtures used by counterexamples and witnesses -/

def selPostA : Selector :=
  { Raw := "website/content/v1/post/a", KGV := "website/content/v1",
    KGVN := "website/content/v1/post", Name := "a" }

def selPostB : Selector :=
  { Raw := "website/content/v1/post/b", KGV := "website/content/v1",
    KGVN := "website/content/v1/post", Name := "b" }

def selPostC : Selector :=
  { Raw := "website/content/v1/post/c", KGV := "website/content/v1",
    KGVN := "website/content/v1/post", Name := "c" }

def metaOf (live : Bool) (pa : Option PublishAt) : Meta :=
  { Live := live, publishAt := pa, Relations := [], Children := [], Imports := [] }

def man2020 : Manifest :=
  { selector := selPostA, meta := some (metaOf true (some ⟨2020, 1, 1, 0, 0, 0⟩)) }

def man2010 : Manifest :=
  { selector := selPostB, meta := some (metaOf true (some ⟨2010, 6, 15, 0, 0, 0⟩)) }

/-- Claim C3 counterexample: both manifests carry publish times and
`man2020` is published strictly after `man2010`, yet `man2020.Less man2010`
is `false` — the source orders by `publishAt` ascending
(`Less` is `Before`), not descending as the claim states. -/
theorem c3_counterexample :
    man2020.meta.isSome = true ∧ man2010.meta.isSome = true ∧
    man2020.publishTime > man2010.publishTime ∧
    Manifest.Less man2020 man2010 = false := by
  refine ⟨rfl, rfl, by decide, by decide⟩

/-- Claim C3 (amended): for manifests with non-nil `Meta`, when both carry
a publish time `Less`/`Greater`/`Equal` compare the publish instants
ascending (`Less` means published earlier, `Greater` later); when either
side lacks a publish time, `Less` and `Greater` fall back to lexicographic
comparison of the selector IDs and `Equal` returns `true`. -/
theorem c3_manifest_ordering (a b : Manifest)
    (_ha : a.meta.isSome = true) (hb : b.meta.isSome = true) :
    (a.publishTime ≠ 0 → b.publishTime ≠ 0 →
      (a.Less b = decide (a.publishTime < b.publishTime) ∧
       a.Greater b = decide (a.publishTime > b.publishTime) ∧
       a.Equal b = decide (a.publishTime = b.publishTime))) ∧
    ((a.publishTime = 0 ∨ b.publishTime = 0) →
      (a.Less b = decide (a.selector.ID < b.selector.ID) ∧
       a.Greater b = decide (a.selector.ID > b.selector.ID) ∧
       a.Equal b = true)) := by
  rcases hmb : b.meta with _ | mtb
  · rw [hmb] at hb; simp at hb
  · constructor
    · intro hpa hpb
      have hcond : ¬(a.publishTime = 0 ∨ b.publishTime = 0) := by tauto
      refine ⟨?_, ?_, ?_⟩ <;>
        simp [Manifest.Less, Manifest.Greater, Manifest.Equal, hmb, hcond]
    · intro hcond
      refine ⟨?_, ?_, ?_⟩ <;>
        simp [Manifest.Less, Manifest.Greater, Manifest.Equal, hmb, hcond]

theorem c3_manifest_ordering_witness :
    man2020.meta.isSome = true ∧ man2010.meta.isSome = true ∧
    (Manifest.Less man2010 man2020 = true ∧ Manifest.Greater man2010 man2020 = false) := by
  have h := c3_manifest_ordering man2010 man2020 (by decide) (by decide)
  refine ⟨rfl, rfl, ?_, ?_⟩
  · rw [(h.1 (by decide) (by decide)).1]; decide
  · rw [(h.1 (by decide) (by decide)).2.1]; decide

def manBoundary : Manifest :=
  { selector := selPostC, meta := some (metaOf true (some ⟨2021, 3, 4, 5, 6, 7⟩)) }

/-- Claim C4 counterexample: at the instant `now = publishAt` the claim
says the manifest counts as live (`publishAt ≤ now`), but
`time.Now().After(publishAt)` is strict, so `IsLive` is `false`. -/
theorem c4_counterexample :
    manBoundary.meta = some (metaOf true (some ⟨2021, 3, 4, 5, 6, 7⟩)) ∧
    (metaOf true (some ⟨2021, 3, 4, 5, 6, 7⟩)).Live = true ∧
    manBoundary.publishTime ≠ 0 ∧
    manBoundary.publishTime ≤ manBoundary.publishTime ∧
    Manifest.IsLive manBoundary.publishTime manBoundary = false := by
  refine ⟨rfl, rfl, by decide, le_refl _, by decide⟩

/-- Claim C4 (amended): `IsLive` holds iff `Meta` is present, `Live` is
set, and the publish time is either the zero time or strictly earlier
than the current time (`time.Now().After` is strict, so a manifest whose
`publishAt` equals the evaluation instant is not yet live). -/
theorem c4_islive (now : Int) (m : Manifest) :
    Manifest.IsLive now m = true ↔
      ∃ mt, m.meta = some mt ∧ mt.Live = true ∧
        (m.publishTime = 0 ∨ m.publishTime < now) := by
  rcases hm : m.meta with _ | mt
  · simp [Manifest.IsLive, hm]
  · by_cases hl : mt.Live
    · by_cases hp : m.publishTime = 0
      · simp [Manifest.IsLive, hm, hl, hp]
      · simp only [Manifest.IsLive, hm, hl, Bool.not_true, Bool.false_eq_true, if_false,
          ne_eq, hp, not_false_iff, if_true, decide_eq_true_eq]
        constructor
        · intro h; exact ⟨mt, rfl, hl, Or.inr h⟩
        · rintro ⟨mt', hmt', hlive', h⟩
          tauto
    · simp [Manifest.IsLive, hm, hl]

/-! ## Index (src/pkg/manifest/index.go)

The inner `index` keeps: `all` (the `all` shard's manifest slice), `byID`
and `notLive` (Go string maps), and `shard` mapping KGVN to that shard's
manifest slice.  A shard's `before`/`after`/`sameTime` navigation maps
feed only `Next`/`Prev`/`SameMonthDay`, which no claim touches, so they
are not carried.  Go errors become the `FindErr` type below; each
constructor stands for one `fmt.Errorf` site (or sentinel). -/

inductive FindErr where
  /-- `"%s: must be \"live\" to be used"` from `index.findOne`. -/
  | notLive (m : Manifest)
  /-- `"%w: %s"` wrapping the `notFound` sentinel with the selector ID. -/
  | notFound (id : String)
  /-- the bare `notFound` sentinel returned on the `fastError` path. -/
  | notFoundFast
  /-- `"%s is empty"` from `index.shardOf`. -/
  | shardEmpty (kgvn : String)
  /-- `"%s is not (yet) a supported operator"` from `MatchExpression.filter`. -/
  | unsupportedOperator (op : String)
  /-- models the nil-pointer dereference of a nil `context` in
  `Relation.resolve` when `mustBeRelatedToContext` is set (no healthy
  caller reaches it). -/
  | nilContext
  /-- `"%s: resolving relations: %w"` from `Index.Collate`. -/
  | resolvingRelations (id : String) (inner : FindErr)
  /-- `"adding relations to %s: %w"` from `Index.Collate`. -/
  | addingRelations (id : String) (inner : FindErr)
  /-- models a run of the `Collate` fixpoint loop that has not stabilized
  within the supplied fuel. -/
  | fuelExhausted
  deriving DecidableEq, Repr

structure index where
  all : List Manifest
  byID : List (String × Manifest)
  notLive : List (String × Manifest)
  shard : List (String × List Manifest)
  deriving DecidableEq, Repr

def newIndex : index := { all := [], byID := [], notLive := [], shard := [] }

/-- One step of `index.insert`'s loop body: the flag reports a collision
(a repeated live ID, collected into the returned error by the caller). -/
def insertOne (now : Int) (i : index) (m : Manifest) : index × Bool :=
  let id := m.selector.ID
  if !(Manifest.IsLive now m) then
    ({ i with notLive := aset i.notLive id m }, false)
  else if (alookup i.byID id).isSome then (i, true)
  else
    let shardKey := m.selector.KGVN
    let shardList := (alookup i.shard shardKey).getD []
    ({ i with
        byID := aset i.byID id m
        all := i.all ++ [m]
        shard := aset i.shard shardKey (shardList ++ [m]) }, false)

/-- `index.insert`: the loop over the supplied manifests, with the Bool
reporting whether any collision occurred (the Go version returns an error
enumerating them). -/
def insertAll (now : Int) (i : index) : List Manifest → index × Bool
  | [] => (i, false)
  | m :: ms =>
    let step := insertOne now i m
    let rest := insertAll now step.1 ms
    (rest.1, step.2 || rest.2)

/-- `index.findOne`. -/
def index.findOne (i : index) (target : Selector) (fastError : Bool) :
    Except FindErr Manifest :=
  match alookup i.byID target.ID with
  | some m => .ok m
  | none =>
    if fastError then .error .notFoundFast
    else
      match alookup i.notLive target.ID with
      | some m => .error (.notLive m)
      | none => .error (.notFound target.ID)

/-- `index.shardOf` (returning the shard's manifest slice). -/
def index.shardOf (i : index) (target : Selector) : Except FindErr (List Manifest) :=
  match alookup i.shard target.KGVN with
  | some s => .ok s
  | none => .error (.shardEmpty target.KGVN)

/-- `index.collate`: sorts `all` and every shard slice with the manifest
ordering (ascending `Less`); the navigation maps it also builds are not
carried (no claim reads them).  `byID` and `notLive` are untouched. -/
def manifestLeAsc (a b : Manifest) : Bool := !(Manifest.Less b a)

def manifestLeDesc (a b : Manifest) : Bool := !(Manifest.Less a b)

def index.collate (i : index) : index :=
  { i with
      all := sortBy manifestLeAsc i.all
      shard := i.shard.map (fun kv => (kv.1, sortBy manifestLeAsc kv.2)) }

/-- The outer `Index`: content plus the relations table (`map[*Manifest]
*index` in Go; manifests stored in the table are the canonical pointers
held by `content`, unique by selector ID, so the table is keyed here by
ID). `relations == nil` before `Collate` is the empty table. -/
structure FullIndex where
  content : index
  relations : List (String × index)
  deriving DecidableEq, Repr

/-- `Index.Insert`: any insert resets the computed relations. -/
def FullIndex.Insert (now : Int) (I : FullIndex) (ms : List Manifest) :
    FullIndex × Bool :=
  let step := insertAll now I.content ms
  ({ content := step.1, relations := [] }, step.2)

/-- `Index.FindMany`. -/
def FullIndex.FindMany (I : FullIndex) (target : Selector) :
    Except FindErr (List Manifest) :=
  if target.IsWildcard then I.content.shardOf target
  else do
    let m ← I.content.findOne target false
    .ok [m]

/-- `Index.FindOne`. -/
def FullIndex.FindOne (I : FullIndex) (target : Selector) : Except FindErr Manifest :=
  I.content.findOne target false

def isOkB {ε α : Type} : Except ε α → Bool
  | .ok _ => true
  | .error _ => false

/-- `Index.isRelated`.  Go returns `(bool, error)`; its only caller
(`FindManyWithRelation`) discards the error and keeps the boolean, so the
embedding folds the error paths to `false`. -/
def FullIndex.isRelated (I : FullIndex) (target : Manifest) (mustRelateTo : Selector) :
    Bool :=
  match alookup I.relations target.selector.ID with
  | none => false
  | some ri =>
    if !mustRelateTo.IsWildcard then isOkB (ri.findOne mustRelateTo true)
    else isOkB (ri.shardOf mustRelateTo)

/-- `Index.FindManyWithRelation`. -/
def FullIndex.FindManyWithRelation (I : FullIndex) (target mustRelateTo : Selector) :
    Except FindErr (List Manifest) := do
  let found ← I.FindMany target
  .ok (found.filter (fun m => I.isRelated m mustRelateTo))

/-! ## Relation resolver (src/pkg/manifest/meta.go)

The comparison closures dereference `potential.Meta.PublishAt`; a nil
`Meta`/`PublishAt` would panic in Go, so the accessors below return junk
(`0`) there and the theorems about the filter hypothesize presence.
Likewise a `float64` type assertion on a `[y,m,d]` slice (or vice versa)
would panic; the mismatched `MatchValue` shapes compare as `false` and the
theorems hypothesize the well-typed shape. -/

def metaYear (m : Manifest) : Int :=
  match m.meta with
  | some mt => match mt.publishAt with
    | some pa => pa.Year
    | none => 0
  | none => 0

def metaMonth (m : Manifest) : Int :=
  match m.meta with
  | some mt => match mt.publishAt with
    | some pa => pa.Month
    | none => 0
  | none => 0

def metaDay (m : Manifest) : Int :=
  match m.meta with
  | some mt => match mt.publishAt with
    | some pa => pa.Day
    | none => 0
  | none => 0

/-- `MatchExpression.filter` (the src/pkg/manifest/meta.go version; the
`context` parameter is accepted but unused there, as no `*AsContext`
operator is supported yet).  The Go loop appends each still-valid
candidate, breaking out of the value loop on the first match — i.e. a
filter by "some value compares true". -/
def MatchExpression.filter (e : MatchExpression) (search : List Manifest)
    (_context : Option Manifest) : Except FindErr (List Manifest) :=
  match e.Operator with
  | "InYear" =>
    .ok (search.filter (fun p => e.Values.any (fun v =>
      match v with
      | .num n => metaYear p == n
      | .triple _ _ _ => false)))
  | "InMonth" =>
    .ok (search.filter (fun p => e.Values.any (fun v =>
      match v with
      | .num n => metaMonth p == n
      | .triple _ _ _ => false)))
  | "OnDate" =>
    .ok (search.filter (fun p => e.Values.any (fun v =>
      match v with
      | .num _ => false
      | .triple y mo d => metaYear p == y && metaMonth p == mo && metaDay p == d)))
  | op => .error (.unsupportedOperator op)

/-- The match-expression loop of `Relation.resolve`: each matcher narrows
the running set; when the count reaches zero the loop exits early. -/
def applyMatchers (context : Option Manifest) :
    List MatchExpression → List Manifest → Except FindErr (List Manifest)
  | [], valid => .ok valid
  | e :: rest, valid =>
    if valid.isEmpty then .ok valid
    else do
      let valid' ← e.filter valid context
      applyMatchers context rest valid'

/-- The candidate phase of `Relation.resolve`: seed (context-constrained,
unconstrained, or empty) then OR-accumulation over `MatchIfRelatedTo`,
then AND-narrowing over `MatchExpression`. -/
def Relation.candidates (r : Relation) (I : FullIndex) (context : Option Manifest)
    (mustBeRelatedToContext : Bool) : Except FindErr (List Manifest) := do
  let seed ←
    if mustBeRelatedToContext then
      match context with
      | some c => I.FindManyWithRelation r.selector c.selector
      | none => .error .nilContext
    else if r.MatchIfRelatedTo.isEmpty then
      I.FindMany r.selector
    else
      .ok []
  let accumulated ← r.MatchIfRelatedTo.foldlM
    (fun acc related => do
      let matched ← I.FindManyWithRelation r.selector related
      pure (acc ++ matched))
    seed
  applyMatchers context r.matchExpression accumulated

/-- `Relation.resolve`: candidates, then `sort.Sort` (ascending `Less`
for `""`/`"asc"`, `sort.Reverse` otherwise), then offset/limit windowing. -/
def Relation.resolve (r : Relation) (I : FullIndex) (context : Option Manifest)
    (mustBeRelatedToContext : Bool) : Except FindErr (List Manifest) := do
  let validMatches ← r.candidates I context mustBeRelatedToContext
  let sorted :=
    if r.Order = "" ∨ r.Order = "asc" then sortBy manifestLeAsc validMatches
    else sortBy manifestLeDesc validMatches
  if r.Offset = 0 ∧ r.Limit = 0 then .ok sorted
  else
    let total := sorted.length
    let offset := if r.Offset > total then total else r.Offset
    let limit := if r.Limit = 0 then total
      else if offset + r.Limit > total then total else offset + r.Limit
    .ok ((sorted.drop offset).take (limit - offset))

/-- `Relation.Resolve`. -/
def Relation.Resolve (r : Relation) (I : FullIndex) : Except FindErr (List Manifest) :=
  r.resolve I none false

instance exceptDecEq {ε α : Type} [DecidableEq ε] [DecidableEq α] :
    DecidableEq (Except ε α) := fun x y =>
  match x, y with
  | .ok a, .ok b =>
    if h : a = b then .isTrue (by rw [h]) else .isFalse (by simp [h])
  | .ok _, .error _ => .isFalse (by simp)
  | .error _, .ok _ => .isFalse (by simp)
  | .error e, .error f =>
    if h : e = f then .isTrue (by rw [h]) else .isFalse (by simp [h])

theorem except_bind_error {ε α β : Type} (e : ε) (f : α → Except ε β) :
    (Except.error e >>= f : Except ε β) = Except.error e := rfl

theorem except_bind_ok {ε α β : Type} (a : α) (f : α → Except ε β) :
    (Except.ok a >>= f : Except ε β) = f a := rfl

/-! ## Claim C7: non-live manifests are segregated -/

/-- Claim C7: inserting a non-live manifest touches only the not-live
sub-table — `byID`, the KGVN shards and `all` are unchanged — and a later
`findOne` on its selector (with no live manifest under that ID) fails
with the must-be-live diagnostic carrying the stored manifest, while
`findOne` on a selector matching neither table fails with not-found. -/
theorem c7_notlive_insert (now : Int) (i : index) (m : Manifest)
    (hnl : Manifest.IsLive now m = false) :
    (insertAll now i [m]).1.byID = i.byID ∧
    (insertAll now i [m]).1.shard = i.shard ∧
    (insertAll now i [m]).1.all = i.all ∧
    alookup (insertAll now i [m]).1.notLive m.selector.ID = some m ∧
    (alookup i.byID m.selector.ID = none →
      (insertAll now i [m]).1.findOne m.selector false = .error (.notLive m)) ∧
    (∀ t : Selector, alookup (insertAll now i [m]).1.byID t.ID = none →
      alookup (insertAll now i [m]).1.notLive t.ID = none →
      (insertAll now i [m]).1.findOne t false = .error (.notFound t.ID)) := by
  have hins : (insertAll now i [m]).1 = { i with notLive := aset i.notLive m.selector.ID m } := by
    simp [insertAll, insertOne, hnl]
  refine ⟨by rw [hins], by rw [hins], by rw [hins], ?_, ?_, ?_⟩
  · rw [hins]
    exact alookup_aset_self _ _ _
  · intro hmiss
    rw [hins]
    simp [index.findOne, hmiss, alookup_aset_self]
  · intro t hb hn
    rw [hins] at hb hn ⊢
    simp only [index.findOne, hb, hn] at *
    simp [index.findOne, hb, hn]

def manNotLive : Manifest :=
  { selector := selPostC, meta := some (metaOf false (some ⟨2001, 2, 3, 0, 0, 0⟩)) }

def selPostMissing : Selector :=
  { Raw := "website/content/v1/post/missing", KGV := "website/content/v1",
    KGVN := "website/content/v1/post", Name := "missing" }

theorem c7_notlive_insert_witness :
    Manifest.IsLive 0 manNotLive = false ∧
    (insertAll 0 newIndex [manNotLive]).1.findOne manNotLive.selector false =
      .error (.notLive manNotLive) ∧
    (insertAll 0 newIndex [manNotLive]).1.findOne selPostMissing false =
      .error (.notFound selPostMissing.ID) := by
  have h := c7_notlive_insert 0 newIndex manNotLive (by decide)
  exact ⟨by decide, h.2.2.2.2.1 (by decide), h.2.2.2.2.2 selPostMissing (by decide) (by decide)⟩

/-! ## Claim C10: an absent shard is an error, not an empty list -/

theorem insertAll_shard_none (now : Int) (k : String) (ms : List Manifest) :
    ∀ i : index, alookup i.shard k = none →
      (∀ m ∈ ms, ¬(Manifest.IsLive now m = true ∧ m.selector.KGVN = k)) →
      alookup (insertAll now i ms).1.shard k = none := by
  induction ms with
  | nil => intro i h _; exact h
  | cons m ms ih =>
    intro i h hall
    have hm := hall m (by simp)
    have hms : ∀ m' ∈ ms, ¬(Manifest.IsLive now m' = true ∧ m'.selector.KGVN = k) :=
      fun m' hm' => hall m' (by simp [hm'])
    simp only [insertAll]
    apply ih _ _ hms
    unfold insertOne
    rcases hl : Manifest.IsLive now m with _ | _
    · simpa using h
    · have hne : m.selector.KGVN ≠ k := fun he => hm ⟨hl, he⟩
      rcases hex : (alookup i.byID m.selector.ID).isSome with _ | _
      · simpa [hl, hex, alookup_aset_ne _ _ _ _ hne] using h
      · simpa [hl, hex] using h

/-- Claim C10: a wildcard lookup whose KGVN shard is absent is an error
("... is empty"), not an empty list; resolving a relation seeded by such a
wildcard propagates the error; and the shard is absent exactly when no
live manifest with that KGVN was ever inserted. -/
theorem c10_findmany_empty_shard (I : FullIndex) (target : Selector)
    (hw : target.IsWildcard = true)
    (habs : alookup I.content.shard target.KGVN = none) :
    I.FindMany target = .error (.shardEmpty target.KGVN) ∧
    (∀ (r : Relation) (ctx : Option Manifest),
      r.selector = target → r.MatchIfRelatedTo = [] →
      r.resolve I ctx false = .error (.shardEmpty target.KGVN)) ∧
    (∀ (now : Int) (ms : List Manifest),
      (∀ m ∈ ms, ¬(Manifest.IsLive now m = true ∧ m.selector.KGVN = target.KGVN)) →
      alookup (insertAll now newIndex ms).1.shard target.KGVN = none) := by
  have hfm : I.FindMany target = .error (.shardEmpty target.KGVN) := by
    simp [FullIndex.FindMany, hw, index.shardOf, habs]
  refine ⟨hfm, ?_, ?_⟩
  · intro r ctx hsel hrel
    simp [Relation.resolve, Relation.candidates, hsel, hrel, hfm, except_bind_error]
  · intro now ms hms
    exact insertAll_shard_none now target.KGVN ms newIndex (by simp [newIndex, alookup]) hms

def selPostStar : Selector :=
  { Raw := "website/content/v1/post/*", KGV := "website/content/v1",
    KGVN := "website/content/v1/post", Name := "*" }

theorem c10_findmany_empty_shard_witness :
    FullIndex.FindMany ⟨newIndex, []⟩ selPostStar =
      .error (.shardEmpty selPostStar.KGVN) := by
  exact (c10_findmany_empty_shard ⟨newIndex, []⟩ selPostStar (by decide) (by decide)).1

/-! ## Claim C2: resolve sorts by publish time and windows -/

theorem publishTime_ne_zero_meta {m : Manifest} (h : m.publishTime ≠ 0) :
    ∃ mt, m.meta = some mt := by
  rcases hm : m.meta with _ | mt
  · exact absurd (by simp [Manifest.publishTime, hm]) h
  · exact ⟨mt, rfl⟩

theorem manifestLeAsc_eq (a b : Manifest)
    (ha : a.publishTime ≠ 0) (hb : b.publishTime ≠ 0) :
    manifestLeAsc a b = decide (a.publishTime ≤ b.publishTime) := by
  obtain ⟨mta, hma⟩ := publishTime_ne_zero_meta ha
  have hcond : ¬(b.publishTime = 0 ∨ a.publishTime = 0) := by tauto
  simp only [manifestLeAsc, Manifest.Less, hma, hcond, if_false]
  by_cases h : b.publishTime < a.publishTime
  · simp [h, Int.not_le.mpr h]
  · simp [h, Int.not_lt.mp h]

theorem manifestLeDesc_eq (a b : Manifest)
    (ha : a.publishTime ≠ 0) (hb : b.publishTime ≠ 0) :
    manifestLeDesc a b = decide (b.publishTime ≤ a.publishTime) := by
  obtain ⟨mtb, hmb⟩ := publishTime_ne_zero_meta hb
  have hcond : ¬(a.publishTime = 0 ∨ b.publishTime = 0) := by tauto
  simp only [manifestLeDesc, Manifest.Less, hmb, hcond, if_false]
  by_cases h : a.publishTime < b.publishTime
  · simp [h, Int.not_le.mpr h]
  · simp [h, Int.not_lt.mp h]

theorem sortAsc_time_sorted (ms : List Manifest)
    (hp : ∀ m ∈ ms, m.publishTime ≠ 0) :
    (sortBy manifestLeAsc ms).Pairwise (fun a b => a.publishTime ≤ b.publishTime) := by
  have hps := sortBy_pairwise manifestLeAsc (fun m => m.publishTime ≠ 0)
    (fun a b ha hb => by
      rw [manifestLeAsc_eq a b ha hb, manifestLeAsc_eq b a hb ha]
      by_cases h : a.publishTime ≤ b.publishTime
      · exact Or.inl (by simpa using h)
      · exact Or.inr (by simp; omega))
    (fun a b c ha hb hc hab hbc => by
      rw [manifestLeAsc_eq a b ha hb] at hab
      rw [manifestLeAsc_eq b c hb hc] at hbc
      rw [manifestLeAsc_eq a c ha hc]
      simp only [decide_eq_true_eq] at *
      omega)
    ms hp
  refine hps.imp_of_mem ?_
  intro a b hma hmb hab
  have ha := hp a ((mem_sortBy manifestLeAsc ms a).mp hma)
  have hb := hp b ((mem_sortBy manifestLeAsc ms b).mp hmb)
  rw [manifestLeAsc_eq a b ha hb] at hab
  simpa using hab

theorem sortDesc_time_sorted (ms : List Manifest)
    (hp : ∀ m ∈ ms, m.publishTime ≠ 0) :
    (sortBy manifestLeDesc ms).Pairwise (fun a b => b.publishTime ≤ a.publishTime) := by
  have hps := sortBy_pairwise manifestLeDesc (fun m => m.publishTime ≠ 0)
    (fun a b ha hb => by
      rw [manifestLeDesc_eq a b ha hb, manifestLeDesc_eq b a hb ha]
      by_cases h : b.publishTime ≤ a.publishTime
      · exact Or.inl (by simpa using h)
      · exact Or.inr (by simp; omega))
    (fun a b c ha hb hc hab hbc => by
      rw [manifestLeDesc_eq a b ha hb] at hab
      rw [manifestLeDesc_eq b c hb hc] at hbc
      rw [manifestLeDesc_eq a c ha hc]
      simp only [decide_eq_true_eq] at *
      omega)
    ms hp
  refine hps.imp_of_mem ?_
  intro a b hma hmb hab
  have ha := hp a ((mem_sortBy manifestLeDesc ms a).mp hma)
  have hb := hp b ((mem_sortBy manifestLeDesc ms b).mp hmb)
  rw [manifestLeDesc_eq a b ha hb] at hab
  simpa using hab

/-- Claim C2: whenever `Relation.resolve` succeeds, its output is the
candidate set sorted by publish time — ascending for order `""`/`"asc"`,
descending for `"desc"` — windowed from `min(offset, total)` to
`min(offset + limit, total)`, with `limit = 0` imposing no upper bound.
(The hypothesis that every candidate carries a publish time makes the
comparator a total preorder; `sort.Sort` promises nothing otherwise.) -/
theorem c2_resolve_sort_window (r : Relation) (I : FullIndex)
    (ctx : Option Manifest) (mb : Bool) (ms out : List Manifest)
    (hc : r.candidates I ctx mb = .ok ms)
    (hr : r.resolve I ctx mb = .ok out)
    (hp : ∀ m ∈ ms, m.publishTime ≠ 0) :
    (out =
      (let sorted := if r.Order = "" ∨ r.Order = "asc" then sortBy manifestLeAsc ms
        else sortBy manifestLeDesc ms
       let total := ms.length
       let lo := min r.Offset total
       let hi := if r.Limit = 0 then total else min (r.Offset + r.Limit) total
       (sorted.drop lo).take (hi - lo))) ∧
    ((r.Order = "" ∨ r.Order = "asc") →
      out.Pairwise (fun a b => a.publishTime ≤ b.publishTime)) ∧
    (r.Order = "desc" →
      out.Pairwise (fun a b => b.publishTime ≤ a.publishTime)) := by
  simp only [Relation.resolve, hc, except_bind_ok] at hr
  set sorted := (if r.Order = "" ∨ r.Order = "asc" then sortBy manifestLeAsc ms
    else sortBy manifestLeDesc ms) with hsorted
  have hslen : sorted.length = ms.length := by
    rw [hsorted]
    by_cases h : r.Order = "" ∨ r.Order = "asc" <;> simp [h, sortBy_length]
  have hwindow : out =
      (sorted.drop (min r.Offset ms.length)).take
        ((if r.Limit = 0 then ms.length else min (r.Offset + r.Limit) ms.length) -
          min r.Offset ms.length) := by
    by_cases hz : r.Offset = 0 ∧ r.Limit = 0
    · rw [if_pos hz] at hr
      obtain rfl := Except.ok.inj hr
      rw [hz.1, hz.2]
      simp [← hslen]
    · rw [if_neg hz] at hr
      obtain rfl := Except.ok.inj hr
      rw [hslen]
      have hoff : (if r.Offset > ms.length then ms.length else r.Offset) =
          min r.Offset ms.length := by
        split <;> omega
      rw [hoff]
      have hlim : (if r.Limit = 0 then ms.length
          else if min r.Offset ms.length + r.Limit > ms.length then ms.length
          else min r.Offset ms.length + r.Limit) =
          (if r.Limit = 0 then ms.length else min (r.Offset + r.Limit) ms.length) := by
        by_cases hl : r.Limit = 0
        · simp [hl]
        · simp only [hl, if_false]
          split <;> omega
      rw [hlim]
  have hsub : out.Sublist sorted := by
    rw [hwindow]
    exact (List.take_sublist _ _).trans (List.drop_sublist _ _)
  have hmem : ∀ m ∈ sorted, m.publishTime ≠ 0 := by
    intro m hm
    apply hp
    rw [hsorted] at hm
    by_cases h : r.Order = "" ∨ r.Order = "asc" <;>
      simp only [h, if_true, if_false] at hm <;>
      first
        | exact (mem_sortBy manifestLeAsc ms m).mp (by simpa [h] using hm)
        | exact (mem_sortBy manifestLeDesc ms m).mp (by simpa [h] using hm)
  refine ⟨hwindow, ?_, ?_⟩
  · intro hasc
    have : sorted.Pairwise (fun a b => a.publishTime ≤ b.publishTime) := by
      rw [hsorted, if_pos hasc]
      exact sortAsc_time_sorted ms hp
    exact this.sublist hsub
  · intro hdesc
    have hnot : ¬(r.Order = "" ∨ r.Order = "asc") := by
      rw [hdesc]; rintro (h | h) <;> simp at h
    have : sorted.Pairwise (fun a b => b.publishTime ≤ a.publishTime) := by
      rw [hsorted, if_neg hnot]
      exact sortDesc_time_sorted ms hp
    exact this.sublist hsub

def nowRef : Int := goTimeAbs ⟨2021, 1, 1, 0, 0, 0⟩

def IC2 : FullIndex := (FullIndex.Insert nowRef ⟨newIndex, []⟩ [man2010, man2020]).1

def relC2 : Relation :=
  { Name := "recent", selector := selPostStar, MatchIfRelatedTo := [],
    matchExpression := [], Limit := 1, Offset := 1, Order := "" }

theorem c2_resolve_sort_window_witness :
    relC2.resolve IC2 none false = .ok [man2020] ∧
    ([man2020] : List Manifest).Pairwise (fun a b => a.publishTime ≤ b.publishTime) := by
  refine ⟨by decide, ?_⟩
  exact (c2_resolve_sort_window relC2 IC2 none false [man2010, man2020] [man2020]
    (by decide) (by decide) (by decide)).2.1 (Or.inl rfl)

/-! ## Claim C1: match-expression narrowing -/

theorem filter_inYear (k : String) (s : List Manifest) (vs : List MatchValue)
    (ctx : Option Manifest) :
    MatchExpression.filter ⟨k, "InYear", vs⟩ s ctx =
      .ok (s.filter (fun p => vs.any (fun v =>
        match v with
        | .num n => metaYear p == n
        | .triple _ _ _ => false))) := rfl

theorem filter_inMonth (k : String) (s : List Manifest) (vs : List MatchValue)
    (ctx : Option Manifest) :
    MatchExpression.filter ⟨k, "InMonth", vs⟩ s ctx =
      .ok (s.filter (fun p => vs.any (fun v =>
        match v with
        | .num n => metaMonth p == n
        | .triple _ _ _ => false))) := rfl

/-- Claim C1: with the wildcard selector, no `matchIfRelatedTo` and
`matchExpression = [InYear [2010], InMonth [6]]`, `Relation.resolve`
returns exactly the candidates published in June 2010, in ascending
publish-time order; and in general an `InYear` (resp. `InMonth`) filter
step keeps exactly the candidates whose `publishAt.Year` (resp. `.Month`)
equals at least one of the expression's values. -/
theorem c1_match_expression_narrowing (r : Relation) (I : FullIndex)
    (cands out : List Manifest)
    (_hw : r.selector.IsWildcard = true)
    (hnone : r.MatchIfRelatedTo = [])
    (hexpr : r.matchExpression =
      [⟨"", "InYear", [.num 2010]⟩, ⟨"", "InMonth", [.num 6]⟩])
    (hord : r.Order = "") (hoff : r.Offset = 0) (hlim : r.Limit = 0)
    (hfm : I.FindMany r.selector = .ok cands)
    (hp : ∀ m ∈ cands, m.publishTime ≠ 0)
    (hres : r.resolve I none false = .ok out) :
    (out.Perm (cands.filter (fun m => metaYear m == 2010 && metaMonth m == 6)) ∧
     out.Pairwise (fun a b => a.publishTime ≤ b.publishTime)) ∧
    (∀ (e : MatchExpression) (search res : List Manifest) (ctx : Option Manifest),
      search ≠ [] →
      (e.Operator = "InYear" → e.filter search ctx = .ok res →
        ∀ m, m ∈ res ↔ m ∈ search ∧
          ∃ n : Int, MatchValue.num n ∈ e.Values ∧ metaYear m = n) ∧
      (e.Operator = "InMonth" → e.filter search ctx = .ok res →
        ∀ m, m ∈ res ↔ m ∈ search ∧
          ∃ n : Int, MatchValue.num n ∈ e.Values ∧ metaMonth m = n)) := by
  have hfiltered : out =
      sortBy manifestLeAsc ((cands.filter (fun m => metaYear m == 2010)).filter
        (fun m => metaMonth m == 6)) := by
    have hcand : r.candidates I none false =
        applyMatchers none r.matchExpression cands := by
      simp [Relation.candidates, hnone, hfm, except_bind_ok]
    have happ : applyMatchers none r.matchExpression cands =
        .ok ((cands.filter (fun m => metaYear m == 2010)).filter
          (fun m => metaMonth m == 6)) := by
      rw [hexpr]
      by_cases hc0 : cands.isEmpty
      · rw [List.isEmpty_iff.mp hc0]
        simp [applyMatchers]
      · simp only [applyMatchers, hc0, Bool.false_eq_true, if_false,
          filter_inYear, except_bind_ok]
        have hstep1 : cands.filter (fun p => [MatchValue.num (2010 : Int)].any
            (fun v => match v with
              | .num n => metaYear p == n
              | .triple _ _ _ => false)) =
            cands.filter (fun m => metaYear m == 2010) := by
          apply List.filter_congr
          intro m _
          simp
        rw [hstep1]
        by_cases hc1 : (cands.filter (fun m => metaYear m == 2010)).isEmpty
        · rw [List.isEmpty_iff.mp hc1]
          simp [applyMatchers]
        · simp only [applyMatchers, hc1, Bool.false_eq_true, if_false,
            filter_inMonth, except_bind_ok]
          congr 1
          apply List.filter_congr
          intro m _
          simp
    simp only [Relation.resolve, hcand, happ, except_bind_ok, hord, hoff, hlim] at hres
    simp only [if_pos (Or.inl rfl), and_self, if_true] at hres
    exact (Except.ok.inj hres).symm
  constructor
  · constructor
    · rw [hfiltered]
      refine (sortBy_perm _ _).trans ?_
      rw [List.filter_filter]
      have heq : List.filter (fun a => metaMonth a == 6 && metaYear a == 2010) cands =
          List.filter (fun m => metaYear m == 2010 && metaMonth m == 6) cands := by
        apply List.filter_congr
        intro m _
        rw [Bool.and_comm]
      rw [heq]
    · rw [hfiltered]
      apply sortAsc_time_sorted
      intro m hm
      exact hp m (List.mem_filter.mp (List.mem_filter.mp hm).1).1
  · intro e search res ctx _hne
    constructor
    · intro hop hfil m
      rcases e with ⟨k, op, vs⟩
      simp only at hop
      subst hop
      rw [filter_inYear] at hfil
      obtain rfl := (Except.ok.inj hfil)
      rw [List.mem_filter]
      constructor
      · rintro ⟨hmem, hpred⟩
        refine ⟨hmem, ?_⟩
        rcases List.any_eq_true.mp hpred with ⟨v, hv, hvp⟩
        rcases v with n | ⟨y, mo, d⟩
        · exact ⟨n, hv, by simpa using hvp⟩
        · simp at hvp
      · rintro ⟨hmem, n, hv, hn⟩
        refine ⟨hmem, List.any_eq_true.mpr ⟨.num n, hv, by simpa using hn⟩⟩
    · intro hop hfil m
      rcases e with ⟨k, op, vs⟩
      simp only at hop
      subst hop
      rw [filter_inMonth] at hfil
      obtain rfl := (Except.ok.inj hfil)
      rw [List.mem_filter]
      constructor
      · rintro ⟨hmem, hpred⟩
        refine ⟨hmem, ?_⟩
        rcases List.any_eq_true.mp hpred with ⟨v, hv, hvp⟩
        rcases v with n | ⟨y, mo, d⟩
        · exact ⟨n, hv, by simpa using hvp⟩
        · simp at hvp
      · rintro ⟨hmem, n, hv, hn⟩
        refine ⟨hmem, List.any_eq_true.mpr ⟨.num n, hv, by simpa using hn⟩⟩

def selPostD : Selector :=
  { Raw := "website/content/v1/post/d", KGV := "website/content/v1",
    KGVN := "website/content/v1/post", Name := "d" }

def selPostE : Selector :=
  { Raw := "website/content/v1/post/e", KGV := "website/content/v1",
    KGVN := "website/content/v1/post", Name := "e" }

def manJan2010 : Manifest :=
  { selector := selPostD, meta := some (metaOf true (some ⟨2010, 1, 5, 0, 0, 0⟩)) }

def manJun2009 : Manifest :=
  { selector := selPostE, meta := some (metaOf true (some ⟨2009, 6, 20, 0, 0, 0⟩)) }

def IC1 : FullIndex :=
  (FullIndex.Insert nowRef ⟨newIndex, []⟩ [man2010, manJan2010, manJun2009]).1

def relC1 : Relation :=
  { Name := "june2010", selector := selPostStar, MatchIfRelatedTo := [],
    matchExpression := [⟨"", "InYear", [.num 2010]⟩, ⟨"", "InMonth", [.num 6]⟩],
    Limit := 0, Offset := 0, Order := "" }

theorem c1_match_expression_narrowing_witness :
    relC1.resolve IC1 none false = .ok [man2010] ∧
    ([man2010] : List Manifest).Perm
      ([man2010, manJan2010, manJun2009].filter
        (fun m => metaYear m == 2010 && metaMonth m == 6)) := by
  refine ⟨by decide, ?_⟩
  exact (c1_match_expression_narrowing relC1 IC1 [man2010, manJan2010, manJun2009] [man2010]
    (by decide) rfl rfl rfl rfl rfl (by decide) (by decide) (by decide)).1.1

/-! ## Collate (src/pkg/manifest/index.go)

`Index.Collate` repeatedly passes over `content.all`, resolving each
manifest's `Imports ++ Relations ++ Children` relations against the index
(whose relations table is being built up during the very same pass) and
recording the results symmetrically with `addRelation`, until the total
resolved count stops changing.  The Go loop has no intrinsic bound, so the
embedding takes an explicit `fuel`; running out of fuel models a loop that
has not yet stabilized and is reported as an error, which the claims'
"Collate returns successfully" hypotheses exclude. -/

def getOr (rels : List (String × index)) (k : String) : index :=
  (alookup rels k).getD newIndex

/-- The `for idx, m := range manifests` loop of `Index.addRelation` that
canonicalizes each related manifest through `FindOne`. -/
def canonicalize (content : index) : List Manifest → Except FindErr (List Manifest)
  | [] => .ok []
  | m :: ms => do
    let c ← content.findOne m.selector false
    let rest ← canonicalize content ms
    .ok (c :: rest)

/-- `Index.addRelation`: record `parent → each` and `each → parent`
(duplicate-insert errors are deliberately discarded, as in Go). -/
def addRelation (now : Int) (content : index) (rels : List (String × index))
    (parent : Manifest) (ms : List Manifest) :
    Except FindErr (List (String × index)) := do
  let pid := parent.selector.ID
  let rels1 := if (alookup rels pid).isSome then rels else aset rels pid newIndex
  let canon ← canonicalize content ms
  let rels2 := aset rels1 pid (insertAll now (getOr rels1 pid) canon).1
  .ok (canon.foldl
    (fun acc target =>
      let tid := target.selector.ID
      let acc1 := if (alookup acc tid).isSome then acc else aset acc tid newIndex
      aset acc1 tid (insertAll now (getOr acc1 tid) [parent]).1)
    rels2)

/-- The relation-resolution loop of one `Collate` item: errors from
wildcard selectors are ignored (their `expanded` is nil). -/
def resolveItemRelations (I : FullIndex) (mt : Meta) :
    Except FindErr (List Manifest) :=
  (mt.Imports ++ mt.Relations ++ mt.Children.map (fun c => c.relation)).foldlM
    (fun acc rel =>
      match rel.Resolve I with
      | .ok expanded => .ok (acc ++ expanded)
      | .error e => if rel.selector.IsWildcard then .ok acc else .error e)
    []

/-- The `for _, item := range i.content.all.manifests` body of one
`Collate` pass, threading the relations table and the running total. -/
def collateItems (now : Int) (content : index) :
    List Manifest → List (String × index) → Int →
    Except FindErr (List (String × index) × Int)
  | [], rels, total => .ok (rels, total)
  | item :: rest, rels, total =>
    match item.meta with
    | none => collateItems now content rest rels total
    | some mt =>
      match resolveItemRelations ⟨content, rels⟩ mt with
      | .error e => .error (.resolvingRelations item.selector.ID e)
      | .ok related =>
        let total1 := total + (related.length : Int)
        let skip :=
          match alookup rels item.selector.ID with
          | some ridx => ridx.byID.length == related.length
          | none => false
        if skip then collateItems now content rest rels total1
        else
          match addRelation now content rels item related with
          | .error e => .error (.addingRelations item.selector.ID e)
          | .ok rels1 => collateItems now content rest rels1 total1

/-- The `for lastCount != totalCount` fixpoint loop of `Collate`. -/
def collateLoop (now : Int) (content : index) :
    Nat → List (String × index) → Int → Int →
    Except FindErr (List (String × index))
  | 0, _, _, _ => .error .fuelExhausted
  | fuel + 1, rels, last, total =>
    if last = total then .ok rels
    else
      match collateItems now content content.all rels 0 with
      | .error e => .error e
      | .ok (rels1, total1) => collateLoop now content fuel rels1 total total1

/-- `Index.Collate`: reset the relations table, iterate to a fixpoint,
then collate the content index and every relation sub-index. -/
def FullIndex.Collate (now : Int) (fuel : Nat) (I : FullIndex) :
    Except FindErr FullIndex :=
  match collateLoop now I.content fuel [] (-1) 0 with
  | .error e => .error e
  | .ok rels =>
    .ok { content := I.content.collate
          relations := rels.map (fun kv => (kv.1, kv.2.collate)) }

/-- `a` is a member of `b`'s relation index: the relations table has an
entry for `b` whose live `byID` table holds `a`. -/
def memRelB (rels : List (String × index)) (b a : String) : Bool :=
  (alookup (getOr rels b).byID a).isSome

theorem alookup_mem {α : Type} (l : List (String × α)) (k : String) (v : α)
    (h : alookup l k = some v) : (k, v) ∈ l := by
  induction l with
  | nil => simp [alookup] at h
  | cons hd tl ih =>
    obtain ⟨k0, v0⟩ := hd
    by_cases h0 : k0 = k
    · subst h0
      simp only [alookup, eq_self_iff_true, if_true] at h
      obtain rfl := Option.some.inj h
      simp
    · simp only [alookup, h0, if_false] at h
      exact List.mem_cons_of_mem _ (ih h)

theorem insertOne_byID_isSome (now : Int) (i : index) (m : Manifest) (a : String)
    (hlive : Manifest.IsLive now m = true) :
    (alookup (insertOne now i m).1.byID a).isSome = true ↔
      ((alookup i.byID a).isSome = true ∨ a = m.selector.ID) := by
  unfold insertOne
  rw [hlive]
  simp only [Bool.not_true, Bool.false_eq_true, if_false]
  by_cases hcol : (alookup i.byID m.selector.ID).isSome
  · rw [if_pos hcol]
    constructor
    · exact Or.inl
    · rintro (h | rfl)
      · exact h
      · exact hcol
  · rw [if_neg hcol]
    simp only [alookup_aset]
    by_cases hid : m.selector.ID = a
    · subst hid
      simp
    · rw [if_neg hid]
      constructor
      · exact Or.inl
      · rintro (h | rfl)
        · exact h
        · exact absurd rfl hid

theorem insertAll_byID_isSome (now : Int) (ms : List Manifest) :
    ∀ (i : index) (a : String),
      (∀ m ∈ ms, Manifest.IsLive now m = true) →
      ((alookup (insertAll now i ms).1.byID a).isSome = true ↔
        ((alookup i.byID a).isSome = true ∨ a ∈ ms.map (fun m => m.selector.ID))) := by
  induction ms with
  | nil => intro i a _; simp [insertAll]
  | cons m ms ih =>
    intro i a hlive
    have hm := hlive m (by simp)
    have hms : ∀ m' ∈ ms, Manifest.IsLive now m' = true :=
      fun m' h => hlive m' (by simp [h])
    simp only [insertAll]
    rw [ih _ a hms, insertOne_byID_isSome now i m a hm]
    simp only [List.map_cons, List.mem_cons]
    tauto

theorem memRelB_ensure (rels : List (String × index)) (k b a : String) :
    memRelB (if (alookup rels k).isSome then rels else aset rels k newIndex) b a =
      memRelB rels b a := by
  by_cases h : (alookup rels k).isSome
  · rw [if_pos h]
  · rw [if_neg h]
    unfold memRelB getOr
    rw [alookup_aset]
    by_cases hk : k = b
    · subst hk
      rcases halo : alookup rels k with _ | v
      · simp [newIndex]
      · exact absurd (by simp [halo]) h
    · rw [if_neg hk]

theorem memRelB_bump (now : Int) (rels : List (String × index)) (k : String)
    (ms : List Manifest) (b a : String)
    (hlive : ∀ m ∈ ms, Manifest.IsLive now m = true) :
    memRelB (aset rels k (insertAll now (getOr rels k) ms).1) b a = true ↔
      (memRelB rels b a = true ∨
        (b = k ∧ a ∈ ms.map (fun m => m.selector.ID))) := by
  unfold memRelB getOr
  by_cases hk : k = b
  · subst hk
    rw [alookup_aset_self]
    simp only [Option.getD_some]
    rw [insertAll_byID_isSome now ms _ a hlive]
    tauto
  · rw [alookup_aset_ne _ _ _ _ hk]
    constructor
    · exact Or.inl
    · rintro (h | ⟨rfl, _⟩)
      · exact h
      · exact absurd rfl hk

theorem findOne_ok_byID (i : index) (t : Selector) (fe : Bool) (m : Manifest)
    (h : i.findOne t fe = .ok m) : alookup i.byID t.ID = some m := by
  unfold index.findOne at h
  rcases halo : alookup i.byID t.ID with _ | v
  · rw [halo] at h
    rcases fe with _ | _
    · rcases hnl : alookup i.notLive t.ID with _ | w <;> rw [hnl] at h <;> simp at h
    · simp at h
  · rw [halo] at h
    obtain rfl := Except.ok.inj h
    rfl

/-- Members of a canonicalized list are values of `content.byID`. -/
theorem canonicalize_mem (content : index) :
    ∀ (ms canon : List Manifest),
      canonicalize content ms = .ok canon →
      ∀ c ∈ canon, ∃ id, alookup content.byID id = some c := by
  intro ms
  induction ms with
  | nil =>
    intro canon h c hc
    simp only [canonicalize] at h
    obtain rfl := Except.ok.inj h
    simp at hc
  | cons m ms ih =>
    intro canon h c hc
    simp only [canonicalize] at h
    rcases hf : content.findOne m.selector false with e | c0
    · rw [hf] at h; exact absurd h (by simp [except_bind_error])
    · rw [hf] at h
      rw [except_bind_ok] at h
      rcases hrest : canonicalize content ms with e | rest
      · rw [hrest] at h; exact absurd h (by simp [except_bind_error])
      · rw [hrest] at h
        rw [except_bind_ok] at h
        obtain rfl := Except.ok.inj h
        rcases List.mem_cons.mp hc with rfl | hc
        · exact ⟨m.selector.ID, findOne_ok_byID content m.selector false c hf⟩
        · exact ih rest hrest c hc

/-- Characterization of the reverse-insertion fold of `addRelation`. -/
theorem memRelB_targetLoop (now : Int) (parent : Manifest)
    (hp : Manifest.IsLive now parent = true) :
    ∀ (ts : List Manifest) (rels : List (String × index)) (b a : String),
      memRelB (ts.foldl
        (fun acc target =>
          let tid := target.selector.ID
          let acc1 := if (alookup acc tid).isSome then acc else aset acc tid newIndex
          aset acc1 tid (insertAll now (getOr acc1 tid) [parent]).1)
        rels) b a = true ↔
      (memRelB rels b a = true ∨
        (∃ t ∈ ts, b = t.selector.ID ∧ a = parent.selector.ID)) := by
  intro ts
  induction ts with
  | nil => intro rels b a; simp
  | cons t ts ih =>
    intro rels b a
    simp only [List.foldl_cons]
    rw [ih]
    have hstep : ∀ b' a', memRelB
        (aset (if (alookup rels t.selector.ID).isSome then rels
               else aset rels t.selector.ID newIndex) t.selector.ID
          (insertAll now (getOr (if (alookup rels t.selector.ID).isSome then rels
               else aset rels t.selector.ID newIndex) t.selector.ID) [parent]).1) b' a' = true ↔
        (memRelB rels b' a' = true ∨
          (b' = t.selector.ID ∧ a' = parent.selector.ID)) := by
      intro b' a'
      rw [memRelB_bump now _ t.selector.ID [parent] b' a'
        (by intro x hx; rcases List.mem_singleton.mp hx with rfl; exact hp)]
      constructor
      · rintro (h | ⟨rfl, h⟩)
        · rw [memRelB_ensure] at h
          exact Or.inl h
        · simp only [List.map_cons, List.map_nil, List.mem_singleton] at h
          exact Or.inr ⟨rfl, h⟩
      · rintro (h | ⟨rfl, rfl⟩)
        · rw [memRelB_ensure]
          exact Or.inl h
        · exact Or.inr ⟨rfl, by simp⟩
    rw [hstep]
    constructor
    · rintro ((h | h) | ⟨u, hu, rfl, rfl⟩)
      · exact Or.inl h
      · exact Or.inr ⟨t, by simp, h.1, h.2⟩
      · exact Or.inr ⟨u, by simp [hu], rfl, rfl⟩
    · rintro (h | ⟨u, hu, rfl, rfl⟩)
      · exact Or.inl (Or.inl h)
      · rcases List.mem_cons.mp hu with rfl | hu
        · exact Or.inl (Or.inr ⟨rfl, rfl⟩)
        · exact Or.inr ⟨u, hu, rfl, rfl⟩

/-- Full characterization of the memberships `addRelation` records: the
old ones plus the pair `(parent, c)` and its inverse `(c, parent)` for
every canonicalized related manifest `c`. -/
theorem addRelation_memRel (now : Int) (content : index)
    (rels rels' : List (String × index)) (parent : Manifest) (ms : List Manifest)
    (hparent : Manifest.IsLive now parent = true)
    (hbyid : ∀ p ∈ content.byID, Manifest.IsLive now p.2 = true)
    (h : addRelation now content rels parent ms = .ok rels') :
    ∃ canon : List Manifest,
      canonicalize content ms = .ok canon ∧
      (∀ c ∈ canon, Manifest.IsLive now c = true) ∧
      (∀ b a, memRelB rels' b a = true ↔
        (memRelB rels b a = true ∨
          (b = parent.selector.ID ∧ a ∈ canon.map (fun c => c.selector.ID)) ∨
          (∃ t ∈ canon, b = t.selector.ID ∧ a = parent.selector.ID))) := by
  unfold addRelation at h
  rcases hcanon : canonicalize content ms with e | canon
  · rw [hcanon] at h
    exact absurd h (by simp [except_bind_error])
  · rw [hcanon] at h
    rw [except_bind_ok] at h
    obtain rfl := Except.ok.inj h
    have hlive : ∀ c ∈ canon, Manifest.IsLive now c = true := by
      intro c hc
      obtain ⟨id, hid⟩ := canonicalize_mem content ms canon hcanon c hc
      exact hbyid (id, c) (alookup_mem _ _ _ hid)
    refine ⟨canon, rfl, hlive, ?_⟩
    intro b a
    rw [memRelB_targetLoop now parent hparent canon _ b a]
    rw [memRelB_bump now _ parent.selector.ID canon b a hlive]
    rw [memRelB_ensure]
    tauto

theorem addRelation_sym (now : Int) (content : index)
    (rels rels' : List (String × index)) (parent : Manifest) (ms : List Manifest)
    (hparent : Manifest.IsLive now parent = true)
    (hbyid : ∀ p ∈ content.byID, Manifest.IsLive now p.2 = true)
    (hsym : ∀ a b, memRelB rels b a = true → memRelB rels a b = true)
    (h : addRelation now content rels parent ms = .ok rels') :
    ∀ a b, memRelB rels' b a = true → memRelB rels' a b = true := by
  obtain ⟨canon, _, _, hchar⟩ :=
    addRelation_memRel now content rels rels' parent ms hparent hbyid h
  intro a b hba
  rw [hchar b a] at hba
  rw [hchar a b]
  rcases hba with h1 | ⟨rfl, ha⟩ | ⟨t, ht, rfl, rfl⟩
  · exact Or.inl (hsym a b h1)
  · rcases List.mem_map.mp ha with ⟨c, hc, rfl⟩
    exact Or.inr (Or.inr ⟨c, hc, rfl, rfl⟩)
  · exact Or.inr (Or.inl ⟨rfl, List.mem_map.mpr ⟨t, ht, rfl⟩⟩)

theorem collateItems_sym (now : Int) (content : index)
    (hbyid : ∀ p ∈ content.byID, Manifest.IsLive now p.2 = true) :
    ∀ (items : List Manifest) (rels : List (String × index)) (total : Int)
      (out : List (String × index) × Int),
      (∀ m ∈ items, Manifest.IsLive now m = true) →
      (∀ a b, memRelB rels b a = true → memRelB rels a b = true) →
      collateItems now content items rels total = .ok out →
      ∀ a b, memRelB out.1 b a = true → memRelB out.1 a b = true := by
  intro items
  induction items with
  | nil =>
    intro rels total out _ hsym h
    obtain rfl := Except.ok.inj h
    exact hsym
  | cons item rest ih =>
    intro rels total out hitems hsym h
    have hitem : Manifest.IsLive now item = true := hitems item (by simp)
    have hrest : ∀ m ∈ rest, Manifest.IsLive now m = true :=
      fun m hm => hitems m (by simp [hm])
    rcases hmeta : item.meta with _ | mt
    · simp only [collateItems, hmeta] at h
      exact ih rels total out hrest hsym h
    · simp only [collateItems, hmeta] at h
      rcases hres : resolveItemRelations ⟨content, rels⟩ mt with e | related
      · simp [hres] at h
      · simp only [hres] at h
        rcases hskip : (match alookup rels item.selector.ID with
            | some ridx => ridx.byID.length == related.length
            | none => false) with _ | _
        · simp only [hskip, Bool.false_eq_true, if_false] at h
          rcases hadd : addRelation now content rels item related with e | rels1
          · simp [hadd] at h
          · simp only [hadd] at h
            exact ih rels1 _ out hrest
              (addRelation_sym now content rels rels1 item related hitem hbyid hsym hadd) h
        · simp only [hskip, if_true] at h
          exact ih rels _ out hrest hsym h

theorem collateLoop_sym (now : Int) (content : index)
    (hbyid : ∀ p ∈ content.byID, Manifest.IsLive now p.2 = true)
    (hall : ∀ m ∈ content.all, Manifest.IsLive now m = true) :
    ∀ (fuel : Nat) (rels out : List (String × index)) (last total : Int),
      (∀ a b, memRelB rels b a = true → memRelB rels a b = true) →
      collateLoop now content fuel rels last total = .ok out →
      ∀ a b, memRelB out b a = true → memRelB out a b = true := by
  intro fuel
  induction fuel with
  | zero => intro rels out last total _ h; simp [collateLoop] at h
  | succ fuel ih =>
    intro rels out last total hsym h
    simp only [collateLoop] at h
    by_cases heq : last = total
    · rw [if_pos heq] at h
      obtain rfl := Except.ok.inj h
      exact hsym
    · rw [if_neg heq] at h
      rcases hpass : collateItems now content content.all rels 0 with e | st
      · simp [hpass] at h
      · simp only [hpass] at h
        exact ih st.1 out total st.2
          (collateItems_sym now content hbyid content.all rels 0 st hall hsym hpass)
          h

theorem alookup_map_collate (rels : List (String × index)) (k : String) :
    alookup (rels.map (fun kv => (kv.1, kv.2.collate))) k =
      (alookup rels k).map index.collate := by
  induction rels with
  | nil => simp [alookup]
  | cons hd tl ih =>
    obtain ⟨k0, v0⟩ := hd
    by_cases h0 : k0 = k <;> simp [alookup, h0, ih]

theorem memRelB_map_collate (rels : List (String × index)) (b a : String) :
    memRelB (rels.map (fun kv => (kv.1, kv.2.collate))) b a = memRelB rels b a := by
  unfold memRelB getOr
  rw [alookup_map_collate]
  rcases alookup rels b with _ | v
  · rfl
  · rfl

/-- Claim C8: after a successful `Collate` of an index whose live tables
hold only live manifests (every reachable index does:
`index.insert` files non-live manifests away), the relation table is
symmetric — whenever `a` is in `b`'s relation index, `b` is in `a`'s. -/
theorem c8_relation_symmetry (now : Int) (fuel : Nat) (I I2 : FullIndex)
    (hall : ∀ m ∈ I.content.all, Manifest.IsLive now m = true)
    (hbyid : ∀ p ∈ I.content.byID, Manifest.IsLive now p.2 = true)
    (hcol : FullIndex.Collate now fuel I = .ok I2) :
    ∀ a b, memRelB I2.relations b a = true → memRelB I2.relations a b = true := by
  unfold FullIndex.Collate at hcol
  rcases hloop : collateLoop now I.content fuel [] (-1) 0 with e | rels
  · rw [hloop] at hcol; simp at hcol
  · rw [hloop] at hcol
    obtain rfl := Except.ok.inj hcol
    intro a b
    simp only [memRelB_map_collate]
    exact collateLoop_sym now I.content hbyid hall fuel [] rels (-1) 0
      (by intro a' b' h'; simp [memRelB, getOr, alookup] at h') hloop a b

def manRelA : Manifest :=
  { selector := selPostA,
    meta := some
      { Live := true, publishAt := some ⟨2010, 6, 15, 0, 0, 0⟩,
        Relations := [{ Name := "", selector := selPostB, MatchIfRelatedTo := [],
                        matchExpression := [], Limit := 0, Offset := 0, Order := "" }],
        Children := [], Imports := [] } }

def manRelB : Manifest :=
  { selector := selPostB, meta := some (metaOf true (some ⟨2009, 1, 1, 0, 0, 0⟩)) }

def IC8 : FullIndex := (FullIndex.Insert nowRef ⟨newIndex, []⟩ [manRelA, manRelB]).1

theorem c8_relation_symmetry_witness :
    ∃ I2, FullIndex.Collate nowRef 5 IC8 = .ok I2 ∧
      memRelB I2.relations selPostB.ID selPostA.ID = true ∧
      ∀ a b, memRelB I2.relations b a = true → memRelB I2.relations a b = true := by
  refine ⟨_, rfl, by decide, ?_⟩
  exact c8_relation_symmetry nowRef 5 IC8 _ (by decide) (by decide) rfl

/-! ## Render tree caching (src/internal/render/main.go)

The destination and cache filesystems are modelled as one path → content
map; `ioutil.ReadFile` is a lookup (an absent path is the read error) and
writes are modelled as succeeding (`ioutil.WriteFile` failures make
`isCached` fall through to regeneration, a path no claim exercises).
`filepath.Join` is modelled on clean single segments.  A resource is
reduced to the fields `render` reads: its cache ID, href, destination
root, and the outcome of `target.Render()`. -/

structure RFS where
  files : List (String × String)
  deriving DecidableEq, Repr

def readFile (fs : RFS) (p : String) : Option String := alookup fs.files p

def writeFile (fs : RFS) (p c : String) : RFS := ⟨aset fs.files p c⟩

def pjoin (a b : String) : String := a ++ "/" ++ b

structure RResource where
  id : String
  href : String
  destRoot : String
  rendered : Except String String
  deriving DecidableEq, Repr

/-- `Tree.isCached`: reads the cache entry and the current output; both
present and equal means up to date; both present but different restores
the cached copy; a failed read on either side forces regeneration. -/
def Tree.isCached (cacheDir : String) (fs : RFS) (target : RResource)
    (outputPath : String) : RFS × Bool :=
  let cachePath := pjoin cacheDir target.id
  match readFile fs cachePath, readFile fs outputPath with
  | some cached, some current =>
    if cached = current then (fs, true)
    else (writeFile fs outputPath cached, true)
  | _, _ => (fs, false)

/-- `Tree.render`: skip outputless resources, short-circuit through
`isCached`, otherwise render and write the bytes to the output path and
then to the cache entry. -/
def Tree.render (cacheDir : String) (fs : RFS) (target : RResource) :
    Except String RFS :=
  if target.href = "" ∨ target.href = "/" then .ok fs
  else
    let outputPath := pjoin target.destRoot target.href
    let step := Tree.isCached cacheDir fs target outputPath
    if step.2 then .ok step.1
    else
      match target.rendered with
      | .error e => .error e
      | .ok content =>
        .ok (writeFile (writeFile step.1 outputPath content)
              (pjoin cacheDir target.id) content)

def fsC9 : RFS := ⟨[(pjoin ".cache" "r1", "old")]⟩

def resC9 : RResource :=
  { id := "r1", href := "page.html", destRoot := "dest", rendered := .ok "new" }

/-- Claim C9 counterexample: the cache entry exists (bytes "old") and the
current output file is missing, so the claim prescribes restoring "old"
from the cache without re-rendering — but the code re-renders: the output
file receives the freshly rendered "new" and the cache entry is
overwritten with it. -/
theorem c9_counterexample :
    readFile fsC9 (pjoin ".cache" "r1") = some "old" ∧
    readFile fsC9 (pjoin "dest" "page.html") = none ∧
    Tree.render ".cache" fsC9 resC9 =
      .ok (writeFile (writeFile fsC9 (pjoin "dest" "page.html") "new")
            (pjoin ".cache" "r1") "new") ∧
    readFile (writeFile (writeFile fsC9 (pjoin "dest" "page.html") "new")
            (pjoin ".cache" "r1") "new") (pjoin "dest" "page.html") = some "new" := by
  refine ⟨by decide, by decide, by decide, by decide⟩

/-- Claim C9 (amended): byte-equal cache and current output skip rendering
and write nothing; a cache entry and a current output that both exist but
differ restore the output from the cache without re-rendering; when the
cache entry *or the current output file* is missing, the content is
rendered and written to the output path and then to the cache entry. -/
theorem c9_render_cache (cacheDir : String) (fs : RFS) (target : RResource)
    (hhref : ¬(target.href = "" ∨ target.href = "/")) :
    (∀ c, readFile fs (pjoin cacheDir target.id) = some c →
      readFile fs (pjoin target.destRoot target.href) = some c →
      Tree.render cacheDir fs target = .ok fs) ∧
    (∀ c cur, readFile fs (pjoin cacheDir target.id) = some c →
      readFile fs (pjoin target.destRoot target.href) = some cur →
      c ≠ cur →
      Tree.render cacheDir fs target =
        .ok (writeFile fs (pjoin target.destRoot target.href) c)) ∧
    ((readFile fs (pjoin cacheDir target.id) = none ∨
      readFile fs (pjoin target.destRoot target.href) = none) →
      ∀ content, target.rendered = .ok content →
      Tree.render cacheDir fs target =
        .ok (writeFile (writeFile fs (pjoin target.destRoot target.href) content)
              (pjoin cacheDir target.id) content)) := by
  refine ⟨?_, ?_, ?_⟩
  · intro c hc hcur
    unfold Tree.render Tree.isCached
    rw [if_neg hhref]
    simp [hc, hcur]
  · intro c cur hc hcur hne
    unfold Tree.render Tree.isCached
    rw [if_neg hhref]
    simp [hc, hcur, hne]
  · rintro hmiss content hcontent
    unfold Tree.render Tree.isCached
    rw [if_neg hhref]
    rcases hmiss with hmiss | hmiss
    · rcases hout : readFile fs (pjoin target.destRoot target.href) with _ | cur <;>
        simp [hmiss, hout, hcontent]
    · rcases hcc : readFile fs (pjoin cacheDir target.id) with _ | c <;>
        simp [hmiss, hcc, hcontent]

theorem c9_render_cache_witness :
    ¬(resC9.href = "" ∨ resC9.href = "/") ∧
    Tree.render ".cache" fsC9 resC9 =
      .ok (writeFile (writeFile fsC9 (pjoin "dest" "page.html") "new")
            (pjoin ".cache" "r1") "new") := by
  refine ⟨by decide, ?_⟩
  exact (c9_render_cache ".cache" fsC9 resC9 (by decide)).2.2 (Or.inr rfl) "new" rfl

/-! ## A historical variant of the match-expression filter

One source variant of `MatchExpression.filter` (which also supports the
`*AsContext` operators) wraps the whole candidate loop in
`if len(m.Values) == 0`, so for the value-bearing operators — whose
`validate` *requires* a non-empty `Values` — the loop never runs and the
filter returns nil, contradicting both the loop's own comment and the
repository's example manifests.  The variant is embedded here to document
the divergence; the claims are settled against the named
src/pkg/manifest/meta.go implementation above. -/

def filterWithGuard (e : MatchExpression) (search : List Manifest)
    (context : Option Manifest) : Except FindErr (List Manifest) :=
  match e.Operator with
  | "InYear" =>
    if e.Values.isEmpty then
      .ok (search.filter (fun p => e.Values.any (fun v =>
        match v with
        | .num n => metaYear p == n
        | .triple _ _ _ => false)))
    else .ok []
  | "InMonth" =>
    if e.Values.isEmpty then
      .ok (search.filter (fun p => e.Values.any (fun v =>
        match v with
        | .num n => metaMonth p == n
        | .triple _ _ _ => false)))
    else .ok []
  | "InSameMonthAsContext" =>
    if e.Values.isEmpty then
      .ok (search.filter (fun p =>
        match context with
        | some c => if p = c then false else metaMonth p == metaMonth c
        | none => false))
    else .ok []
  | "OnSameDayAsContext" =>
    if e.Values.isEmpty then
      .ok (search.filter (fun p =>
        match context with
        | some c => if p = c then false else metaDay p == metaDay c
        | none => false))
    else .ok []
  | op => .error (.unsupportedOperator op)

/-- In the guarded variant, `InYear` with the non-empty value list its own
validation demands filters everything out. -/
theorem filterWithGuard_inYear_empty (search : List Manifest)
    (vs : List MatchValue) (ctx : Option Manifest) (hne : vs ≠ []) :
    filterWithGuard ⟨"", "InYear", vs⟩ search ctx = .ok [] := by
  unfold filterWithGuard
  simp [List.isEmpty_iff, hne]

theorem c5_selector_roundtrip_witness :
    (((goSplit "website/content/v1/post/hello").length = 5 ∧
      ∀ p ∈ goSplit "website/content/v1/post/hello", p ≠ "") ∧
     ∃ sel, Selector.New "website/content/v1/post/hello" = some sel ∧
       sel.ID = "website/content/v1/post/hello") ∧
    Selector.New "website/content/v1/post" = none := by
  refine ⟨⟨by decide, ?_⟩, ?_⟩
  · exact (c5_selector_roundtrip "website/content/v1/post/hello").1 (by decide)
  · exact (c5_selector_roundtrip "website/content/v1/post").2.1 (by decide)

end Aevitas
